import Mathlib

/-!
Shallow embedding of the CSS-utilities indexer (cssParser.ts / indexer.ts).

JavaScript strings are embedded as `List Char`; `String.toLowerCase` on the
ASCII class names handled here is per-character lowering.  JS `Map` and plain
objects are embedded as insertion-ordered association lists with
replace-in-place update (the semantics of `Map.set` / `obj[k] = v`).
`Array.prototype.sort` with the comparator `(a, b) => b.score - a.score` is a
stable descending sort, embedded as a stable insertion sort (the ECMAScript
spec mandates stability, so any stable algorithm yields the same list).
-/

abbrev Str := List Char

/-- Embeds `className.toLowerCase()` (per-character; the indexed names are ASCII). -/
def jsToLower (s : Str) : Str := List.map Char.toLower s

/-- Embeds `s.startsWith(q)` : `q` is a prefix of `s`. -/
def strStartsWith : Str → Str → Bool
  | _, [] => true
  | [], _ :: _ => false
  | c :: t, q :: qs => c = q && strStartsWith t qs

/-- Embeds `s.includes(q)` : `q` occurs contiguously somewhere in `s`. -/
def strIncludes : Str → Str → Bool
  | [], q => List.isEmpty q
  | s@(_ :: t), q => strStartsWith s q || strIncludes t q

/-- The loop of `CSSIndexer.fuzzyMatch`: left-to-right over `text`, consuming
`pattern` as a subsequence; a matched character adds `1 + consecutiveMatches`
to the score, a mismatch resets `consecutiveMatches`.  Returns the final score
together with the unconsumed remainder of the pattern. -/
def fuzzyScan : Str → Str → Nat → Nat → Nat × Str
  | _, [], score, _ => (score, [])
  | [], p@(_ :: _), score, _ => (score, p)
  | c :: ts, q :: qs, score, consec =>
    if c = q then fuzzyScan ts qs (score + 1 + consec) (consec + 1)
    else fuzzyScan ts (q :: qs) score 0

/-- Embeds `CSSIndexer.fuzzyMatch(text, pattern)`. -/
def fuzzyMatch (text pattern : Str) : Nat :=
  let r := fuzzyScan text pattern 0 0
  if r.2 = ([] : List Char) then min (r.1 * 2) 40 else 0

/-- Embeds `CSSIndexer.calculateMatchScore(className, query)` (`query` arrives already
lowercased from `searchClasses`). -/
def calculateMatchScore (className : Str) (query : Str) : Nat :=
  let nameLower := jsToLower className
  if nameLower = query then 100
  else if strStartsWith nameLower query then 80
  else if strIncludes nameLower query then 60
  else fuzzyMatch nameLower query

/-- The `CSSClass` interface of cssParser.ts. -/
structure CSSClass where
  name : Str
  properties : List (Str × Str)
  selector : Str
  sourceFile : Str
  line : Nat
  column : Nat
  category : Option Str
  description : Option Str
deriving DecidableEq

/-- Embeds `array.slice(0, stop)` for a JS number `stop`: a negative `stop` counts
from the end of the array. -/
def jsSlice {α : Type} (l : List α) (stop : Int) : List α :=
  let n : Int := l.length
  let e : Int := if stop < 0 then max (n + stop) 0 else min stop n
  List.take e.toNat l

/-- Stable descending insertion into a list of (record, score) pairs: the
inserted element originally preceded everything in the list, so it goes in
front of the first element of score ≤ its own — exactly where a stable sort
under `(a, b) => b.score - a.score` puts it. -/
def insertDesc (x : CSSClass × Nat) : List (CSSClass × Nat) → List (CSSClass × Nat)
  | [] => [x]
  | y :: ys => if y.2 ≤ x.2 then x :: y :: ys else y :: insertDesc x ys

/-- Stable descending sort by score (`results.sort((a, b) => b.score - a.score)`). -/
def sortDesc : List (CSSClass × Nat) → List (CSSClass × Nat)
  | [] => []
  | x :: xs => insertDesc x (sortDesc xs)

/-- Embeds `CSSIndexer.searchClasses(query, maxResults)`.  The index is the list of
records in `Map` insertion order; `getAllClasses()` is that list itself. -/
def searchClasses (idx : List CSSClass) (query : Str) (maxResults : Int) : List CSSClass :=
  if query = ([] : List Char) then
    jsSlice idx maxResults
  else
    let queryLower := jsToLower query
    let results := idx.filterMap (fun c =>
      let score := calculateMatchScore c.name queryLower
      if 0 < score then some (c, score) else none)
    (jsSlice (sortDesc results) maxResults).map (fun r => r.1)

/-- Truthiness of `properties.key` in JS: the key is present and its value is
a non-empty string. -/
def propTruthy (props : List (Str × Str)) (key : Str) : Bool :=
  match List.find? (fun p => decide (p.1 = key)) props with
  | some p => !(List.isEmpty p.2)
  | none => false

/-- Embeds `CSSParser.inferCategory(className, properties)`.  The property accesses are
transcribed literally: the source reads `properties.fontSize`,
`properties.fontFamily`, `properties.backgroundColor`, `properties.borderRadius`
(camelCase), so those lookups use the camelCase keys. -/
def inferCategory (className : Str) (properties : List (Str × Str)) : Str :=
  let name := jsToLower className
  if strIncludes name ("flex".data) || strIncludes name ("grid".data) ||
     propTruthy properties ("display".data) then
    "Layout".data
  else if strIncludes name ("text".data) || strIncludes name ("font".data) ||
     propTruthy properties ("fontSize".data) || propTruthy properties ("fontFamily".data) ||
     propTruthy properties ("color".data) then
    "Typography".data
  else if strIncludes name ("bg".data) || strIncludes name ("background".data) ||
     propTruthy properties ("backgroundColor".data) || propTruthy properties ("background".data) then
    "Background".data
  else if strIncludes name ("border".data) ||
     propTruthy properties ("border".data) || propTruthy properties ("borderRadius".data) then
    "Border".data
  else if strIncludes name ("p-".data) || strIncludes name ("m-".data) ||
     strIncludes name ("padding".data) || strIncludes name ("margin".data) ||
     propTruthy properties ("padding".data) || propTruthy properties ("margin".data) then
    "Spacing".data
  else if strIncludes name ("w-".data) || strIncludes name ("h-".data) ||
     strIncludes name ("width".data) || strIncludes name ("height".data) ||
     propTruthy properties ("width".data) || propTruthy properties ("height".data) then
    "Sizing".data
  else if strIncludes name ("hidden".data) || strIncludes name ("visible".data) ||
     propTruthy properties ("visibility".data) || propTruthy properties ("opacity".data) then
    "Visibility".data
  else
    "Utilities".data

/-- The JS `\s` class, restricted to the characters that can occur here. -/
def jsWs (c : Char) : Bool :=
  c = ' ' || c = '\t' || c = '\n' || c = '\r' ||
  c = Char.ofNat 11 || c = Char.ofNat 12 || c = Char.ofNat 0xA0 || c = Char.ofNat 0xFEFF

/-- JS line terminators (the characters `.` does not match). -/
def isLineTerm (c : Char) : Bool :=
  c = '\n' || c = '\r' || c = Char.ofNat 0x2028 || c = Char.ofNat 0x2029

/-- Embeds `s.trim()`. -/
def jsTrim (s : Str) : Str :=
  List.reverse (List.dropWhile jsWs (List.reverse (List.dropWhile jsWs s)))

/-- Greedy match of `(.+)` at the current position: at least one
non-line-terminator character, capturing the maximal run. -/
def capturePlus (l : Str) : Option Str :=
  match l with
  | [] => none
  | c :: _ => if isLineTerm c then none else some (List.takeWhile (fun d => !(isLineTerm d)) l)

/-- Greedy match of `\s*(.+)` at the current position, with backtracking:
prefer consuming another whitespace character; on failure let `.` take over. -/
def afterWs : Str → Option Str
  | [] => none
  | c :: t =>
    if jsWs c then
      match afterWs t with
      | some cap => some cap
      | none => capturePlus (c :: t)
    else capturePlus (c :: t)

/-- Match of `@description\s+(.+)` anchored at the head of `l`, returning the
captured group. -/
def descMatchAt (l : Str) : Option Str :=
  if strStartsWith l ("@description".data) then
    match List.drop 12 l with
    | [] => none
    | c :: t => if jsWs c then afterWs t else none
  else none

/-- Embeds `comment.match(/@description\s+(.+)/)`: leftmost match, returning the
captured group. -/
def descSearch : Str → Option Str
  | [] => none
  | l@(_ :: t) =>
    match descMatchAt l with
    | some cap => some cap
    | none => descSearch t

/-- Embeds `CSSParser.extractDescription(rule)`, as a function of the text of the
comment node immediately preceding the rule (`none` when `rule.prev()` is not
a comment). -/
def extractDescription (prevComment : Option Str) : Option Str :=
  match prevComment with
  | none => none
  | some txt =>
    let comment := jsTrim txt
    match descSearch comment with
    | some cap => some (jsTrim cap)
    | none =>
      if !(strIncludes comment ("@".data)) && comment.length < 100 then some comment
      else none

def isAlphaUnd (c : Char) : Bool := c.isAlpha || c = '_'

def isWordDash (c : Char) : Bool := c.isAlphanum || c = '_' || c = '-'

/-- All matches of the global regex `/\.[a-zA-Z_][\w-]*/g`: leftmost,
non-overlapping, each `[\w-]*` greedy; on a failed attempt the scan advances
one position.  The recursion is driven by a fuel counter (every step strictly
shortens the list, so fuel = length is enough); this keeps the definition
structurally recursive and hence kernel-reducible. -/
def classTokensFuel : Nat → Str → List Str
  | 0, _ => []
  | _ + 1, [] => []
  | _ + 1, [_] => []
  | fuel + 1, c :: d :: u =>
    if c = '.' then
      if isAlphaUnd d then
        ('.' :: d :: List.takeWhile isWordDash u)
          :: classTokensFuel fuel (List.dropWhile isWordDash u)
      else
        classTokensFuel fuel (d :: u)
    else
      classTokensFuel fuel (d :: u)

def classTokens (s : Str) : List Str := classTokensFuel s.length s

/-- Embeds `selector.split(",")`. -/
def splitOnComma : Str → List Str
  | [] => [[]]
  | c :: t =>
    if c = ',' then [] :: splitOnComma t
    else
      match splitOnComma t with
      | [] => [[c]]
      | h :: r => (c :: h) :: r

/-- Embeds `CSSParser.parseSelector(selector)`. -/
def parseSelector (selector : Str) : List Str :=
  (List.filter (fun s => decide (0 < List.length s))
    (List.map jsTrim (splitOnComma selector))).flatMap classTokens

/-- Embeds `CSSParser.isValidClassName(className)`: a full match of
`/^\.[a-zA-Z_][\w-]*$/`. -/
def isValidClassName (s : Str) : Bool :=
  match s with
  | c :: d :: rest => c = '.' && isAlphaUnd d && List.all rest isWordDash
  | _ => false

/-- One postcss rule node as `extractClassesFromAST` consumes it: its raw
selector, its declarations in `walkDecls` order, `rule.source?.start?` as an
optional (line, column) pair, and the text of the preceding comment node when
`rule.prev()` is a comment. -/
structure Rule where
  selector : Str
  decls : List (Str × Str)
  source : Option (Nat × Nat)
  prevComment : Option Str
deriving DecidableEq

/-- A parsed postcss `Root`, as the sequence of rules `walkRules` visits. -/
abbrev Root := List Rule

structure CSSParseResult where
  classes : List CSSClass
  errors : List Str
deriving DecidableEq

/-- Embeds `properties[decl.prop] = decl.value` on a JS object: replace in place when
the key exists (keeping its original position), otherwise append. -/
def objSet (props : List (Str × Str)) (key val : Str) : List (Str × Str) :=
  if props.any (fun p => decide (p.1 = key)) then
    props.map (fun p => if p.1 = key then (key, val) else p)
  else props ++ [(key, val)]

/-- The `properties` object built by `rule.walkDecls`. -/
def propsOfDecls (decls : List (Str × Str)) : List (Str × Str) :=
  decls.foldl (fun acc d => objSet acc d.1 d.2) []

/-- Embeds `x || 0` applied to `rule.source?.start?.line` (resp. `.column`). -/
def jsOrZero (o : Option Nat) : Nat := o.getD 0

/-- The spread `...(description && { description })`: the field is set only
when the string is truthy (present and non-empty). -/
def descField (d : Option Str) : Option Str :=
  match d with
  | none => none
  | some s => if s = ([] : List Char) then none else some s

/-- The body of the `selectors.forEach` callback in
`CSSParser.extractClassesFromAST`, for one selector token of one rule
(`className` is `selector.substring(1)`, `properties` the object built by
`walkDecls`). -/
def classOfSelector (rule : Rule) (filePath : Str) (selector : Str) : Option CSSClass :=
  if strStartsWith selector (".".data) && isValidClassName selector then
    if 0 < (propsOfDecls rule.decls).length then
      some { name := List.drop 1 selector
             properties := propsOfDecls rule.decls
             selector := rule.selector
             sourceFile := filePath
             line := jsOrZero (rule.source.map Prod.fst)
             column := jsOrZero (rule.source.map Prod.snd)
             category := some (inferCategory (List.drop 1 selector) (propsOfDecls rule.decls))
             description := descField (extractDescription rule.prevComment) }
    else none
  else none

/-- The records one rule contributes in `CSSParser.extractClassesFromAST`. -/
def extractFromRule (rule : Rule) (filePath : Str) : List CSSClass :=
  (parseSelector rule.selector).filterMap (classOfSelector rule filePath)

/-- Embeds `CSSParser.extractClassesFromAST(root, result, filePath)`: the records
pushed onto `result.classes`, across rules in `walkRules` order. -/
def extractClassesFromAST (root : Root) (filePath : Str) : List CSSClass :=
  root.flatMap (fun rule => extractFromRule rule filePath)

/-- Embeds `CSSParser.parseCSS(content, filePath)`: `none` stands for a raw text on
which `processor.parse` throws; the catch then records one error string and
yields zero classes.  (The per-rule catch inside `extractClassesFromAST`
guards exceptions a pure model cannot raise, so `errors` stays empty on the
success path.) -/
def parseCSS (ast : Option Root) (filePath : Str) : CSSParseResult :=
  match ast with
  | some root => { classes := extractClassesFromAST root filePath, errors := [] }
  | none => { classes := [], errors := [("Failed to parse ".data) ++ filePath] }

/-- Embeds `CSSIndexer.removeClassesFromFile(filePath)`: collect every key whose
record has `sourceFile == filePath`, then delete those keys — on a map with
unique keys this keeps exactly the other records, in order. -/
def removeClassesFromFile (idx : List CSSClass) (filePath : Str) : List CSSClass :=
  idx.filter (fun c => decide (¬ c.sourceFile = filePath))

/-- Embeds `Map.set(name, cssClass)`: replace in place when the key is present,
otherwise append. -/
def mapSet (idx : List CSSClass) (c : CSSClass) : List CSSClass :=
  if idx.any (fun x => decide (x.name = c.name)) then
    idx.map (fun x => if x.name = c.name then c else x)
  else idx ++ [c]

/-- Embeds `result.classes.forEach(cssClass => this.classIndex.set(...))`. -/
def insertAll (idx : List CSSClass) (classes : List CSSClass) : List CSSClass :=
  classes.foldl mapSet idx

/-- Embeds `CSSIndexer.indexFile(filePath)`.  `readResult = none` stands for
`fs.readFileSync` throwing: the surrounding catch logs and returns, leaving
the index untouched.  `readResult = some ast` is a successful read whose
content parses to `ast` (`ast = none` when the parser throws internally). -/
def indexFile (idx : List CSSClass) (filePath : Str) (readResult : Option (Option Root)) :
    List CSSClass :=
  match readResult with
  | none => idx
  | some ast => insertAll (removeClassesFromFile idx filePath) (parseCSS ast filePath).classes

/-- Embeds `CSSIndexer.getClass(className)`. -/
def getClass (idx : List CSSClass) (className : Str) : Option CSSClass :=
  idx.find? (fun c => decide (c.name = className))

/-! ### Helper lemmas about the search pipeline -/

theorem insertDesc_perm (x : CSSClass × Nat) (l : List (CSSClass × Nat)) :
    List.Perm (insertDesc x l) (x :: l) := by
  induction l with
  | nil => simp [insertDesc]
  | cons y ys ih =>
    simp only [insertDesc]
    split
    · exact List.Perm.refl _
    · exact (List.Perm.cons y ih).trans (List.Perm.swap x y ys)

theorem sortDesc_perm (l : List (CSSClass × Nat)) : List.Perm (sortDesc l) l := by
  induction l with
  | nil => simp [sortDesc]
  | cons x xs ih => exact (insertDesc_perm x (sortDesc xs)).trans (List.Perm.cons x ih)

theorem insertDesc_pairwise (x : CSSClass × Nat) (l : List (CSSClass × Nat))
    (h : l.Pairwise (fun a b => b.2 ≤ a.2)) :
    (insertDesc x l).Pairwise (fun a b => b.2 ≤ a.2) := by
  induction l with
  | nil => simp [insertDesc]
  | cons y ys ih =>
    simp only [insertDesc]
    rw [List.pairwise_cons] at h
    split
    · rename_i hyx
      refine List.pairwise_cons.mpr ⟨?_, List.pairwise_cons.mpr h⟩
      intro z hz
      rcases List.mem_cons.mp hz with hz | hz
      · exact hz ▸ hyx
      · exact le_trans (h.1 z hz) hyx
    · rename_i hyx
      refine List.pairwise_cons.mpr ⟨?_, ih h.2⟩
      intro z hz
      rcases List.mem_cons.mp ((insertDesc_perm x ys).mem_iff.mp hz) with hz | hz
      · exact hz ▸ le_of_lt (lt_of_not_le hyx)
      · exact h.1 z hz

theorem sortDesc_pairwise (l : List (CSSClass × Nat)) :
    (sortDesc l).Pairwise (fun a b => b.2 ≤ a.2) := by
  induction l with
  | nil => simp [sortDesc]
  | cons x xs ih => exact insertDesc_pairwise x (sortDesc xs) ih

theorem jsSlice_sublist {α : Type} (l : List α) (k : Int) : List.Sublist (jsSlice l k) l :=
  List.take_sublist _ _

theorem jsSlice_of_length_le {α : Type} (l : List α) (k : Int)
    (h : (l.length : Int) ≤ k) : jsSlice l k = l := by
  unfold jsSlice
  have hk : ¬ k < 0 := by omega
  simp only [hk, if_false]
  have : (min k (l.length : Int)).toNat = l.length := by omega
  rw [this, List.take_length]

theorem length_jsSlice {α : Type} (l : List α) (k : Int) :
    ((jsSlice l k).length : Int) = if k < 0 then max ((l.length : Int) + k) 0 else min k l.length := by
  unfold jsSlice
  split <;> rename_i hk <;> simp only [hk, if_true, if_false, List.length_take] <;> omega

/-- In `searchClasses`, the scored list built by the `forEach` push is the
positive-score records paired with their scores. -/
theorem filterMap_score (idx : List CSSClass) (q : Str) :
    (idx.filterMap (fun c =>
        let score := calculateMatchScore c.name q
        if 0 < score then some (c, score) else none))
      = (idx.filter (fun c => decide (0 < calculateMatchScore c.name q))).map
          (fun c => (c, calculateMatchScore c.name q)) := by
  induction idx with
  | nil => rfl
  | cons c t ih =>
    by_cases h : 0 < calculateMatchScore c.name q <;>
      simp [List.filterMap_cons, List.filter_cons, h, ih]

/-- With a non-empty query, `searchClasses` is the slice of the stable
descending sort of the positive-score records. -/
theorem searchClasses_eq (idx : List CSSClass) (query : Str) (limit : Int)
    (hq : query ≠ ([] : List Char)) :
    searchClasses idx query limit =
      (jsSlice (sortDesc ((idx.filter
          (fun c => decide (0 < calculateMatchScore c.name (jsToLower query)))).map
            (fun c => (c, calculateMatchScore c.name (jsToLower query))))) limit).map
        (fun r => r.1) := by
  simp only [searchClasses, if_neg hq]
  rw [filterMap_score]

/-! ### Concrete records used in examples and witnesses -/

def exPrimary : CSSClass :=
  { name := "primary".data, properties := [("color".data, "red".data)],
    selector := ".primary".data, sourceFile := "a.css".data,
    line := 1, column := 1, category := none, description := none }

def exBtnPrimary : CSSClass :=
  { exPrimary with name := "btn-primary".data, selector := ".btn-primary".data }

def exXyz : CSSClass :=
  { exPrimary with name := "xyz".data, selector := ".xyz".data }

/-- C1: with a non-empty query, every indexed name is scored by the first
applicable tier (case-insensitively): 100 for an exact match, else 80 for a
prefix match, else 60 for a substring match, else the fuzzy-subsequence
score; zero-score names are excluded, and (whenever the limit does not cut
the list short, in particular at the default limit 50 for this example) the
surviving records are exactly the positive-score ones, sorted by descending
score; query "primary" against the index {"primary", "btn-primary", "xyz"}
yields exactly ["primary", "btn-primary"]. -/
theorem C1_search_ranking (idx : List CSSClass) (query : Str) (limit : Int)
    (hq : query ≠ ([] : List Char))
    (hlim : ((idx.filter
        (fun c => decide (0 < calculateMatchScore c.name (jsToLower query)))).length : Int)
      ≤ limit) :
    (∀ name, calculateMatchScore name (jsToLower query) =
        (if jsToLower name = jsToLower query then 100
         else if strStartsWith (jsToLower name) (jsToLower query) then 80
         else if strIncludes (jsToLower name) (jsToLower query) then 60
         else fuzzyMatch (jsToLower name) (jsToLower query))) ∧
    List.Perm (searchClasses idx query limit)
      (idx.filter (fun c => decide (0 < calculateMatchScore c.name (jsToLower query)))) ∧
    (searchClasses idx query limit).Pairwise
      (fun a b => calculateMatchScore b.name (jsToLower query)
        ≤ calculateMatchScore a.name (jsToLower query)) ∧
    searchClasses [exPrimary, exBtnPrimary, exXyz] ("primary".data) 50
      = [exPrimary, exBtnPrimary] := by
  set ql := jsToLower query with hql
  set flt := idx.filter (fun c => decide (0 < calculateMatchScore c.name ql)) with hflt
  set scored := flt.map (fun c => (c, calculateMatchScore c.name ql)) with hscored
  have hlen : ((sortDesc scored).length : Int) ≤ limit := by
    rw [(sortDesc_perm scored).length_eq, hscored, List.length_map]
    exact hlim
  have hfull : jsSlice (sortDesc scored) limit = sortDesc scored :=
    jsSlice_of_length_le _ _ hlen
  have heq : searchClasses idx query limit = (sortDesc scored).map (fun r => r.1) := by
    rw [searchClasses_eq idx query limit hq, ← hql, ← hflt, ← hscored, hfull]
  refine ⟨fun name => rfl, ?_, ?_, by decide⟩
  · rw [heq]
    have h1 : List.Perm ((sortDesc scored).map (fun r : CSSClass × Nat => r.1))
        (scored.map (fun r => r.1)) := (sortDesc_perm scored).map _
    have h2 : scored.map (fun r : CSSClass × Nat => r.1) = flt := by
      rw [hscored, List.map_map]
      exact List.map_id flt
    rw [h2] at h1
    exact h1
  · rw [heq]
    have hmem : ∀ p ∈ sortDesc scored, p.2 = calculateMatchScore p.1.name ql := by
      intro p hp
      have : p ∈ scored := (sortDesc_perm scored).mem_iff.mp hp
      rw [hscored] at this
      rcases List.mem_map.mp this with ⟨c, _, hc⟩
      rw [← hc]
    have hpw : (sortDesc scored).Pairwise
        (fun a b => calculateMatchScore b.1.name ql ≤ calculateMatchScore a.1.name ql) :=
      (sortDesc_pairwise scored).imp_of_mem
        (fun ha hb hab => by
          rw [← hmem _ ha, ← hmem _ hb]; exact hab)
    exact List.pairwise_map.mpr hpw

theorem C1_search_ranking_witness :
    List.Perm (searchClasses [exPrimary, exBtnPrimary, exXyz] ("primary".data) 50)
      ([exPrimary, exBtnPrimary, exXyz].filter
        (fun c => decide (0 < calculateMatchScore c.name (jsToLower ("primary".data))))) ∧
    searchClasses [exPrimary, exBtnPrimary, exXyz] ("primary".data) 50
      = [exPrimary, exBtnPrimary] :=
  ⟨(C1_search_ranking [exPrimary, exBtnPrimary, exXyz] ("primary".data) 50
      (by decide) (by decide)).2.1,
   (C1_search_ranking [exPrimary, exBtnPrimary, exXyz] ("primary".data) 50
      (by decide) (by decide)).2.2.2⟩

/-! ### Helper lemmas: every positive tier implies a subsequence match -/

theorem strStartsWith_sublist {s q : Str} (h : strStartsWith s q = true) :
    List.Sublist q s := by
  induction s generalizing q with
  | nil =>
    cases q with
    | nil => exact List.Sublist.refl _
    | cons c t => simp [strStartsWith] at h
  | cons c t ih =>
    cases q with
    | nil => exact List.nil_sublist _
    | cons d u =>
      simp only [strStartsWith, Bool.and_eq_true, decide_eq_true_eq] at h
      exact h.1 ▸ List.Sublist.cons₂ _ (ih h.2)

theorem strIncludes_sublist {s q : Str} (h : strIncludes s q = true) :
    List.Sublist q s := by
  induction s with
  | nil =>
    cases q with
    | nil => exact List.Sublist.refl _
    | cons c t => simp [strIncludes, List.isEmpty] at h
  | cons c t ih =>
    simp only [strIncludes, Bool.or_eq_true] at h
    rcases h with h | h
    · exact strStartsWith_sublist h
    · exact (ih h).cons c

theorem fuzzyScan_consumed_sublist :
    ∀ (text pattern : Str) (score consec : Nat),
      (fuzzyScan text pattern score consec).2 = ([] : List Char) →
      List.Sublist pattern text := by
  intro text
  induction text with
  | nil =>
    intro pattern score consec h
    cases pattern with
    | nil => exact List.Sublist.refl _
    | cons q qs => simp [fuzzyScan] at h
  | cons c ts ih =>
    intro pattern score consec h
    cases pattern with
    | nil => exact List.nil_sublist _
    | cons q qs =>
      simp only [fuzzyScan] at h
      by_cases hc : c = q
      · rw [if_pos hc] at h
        exact hc ▸ List.Sublist.cons₂ _ (ih qs _ _ h)
      · rw [if_neg hc] at h
        exact (ih (q :: qs) _ _ h).cons c

theorem fuzzyMatch_pos_sublist {text pattern : Str} (h : 0 < fuzzyMatch text pattern) :
    List.Sublist pattern text := by
  unfold fuzzyMatch at h
  by_cases hr : (fuzzyScan text pattern 0 0).2 = ([] : List Char)
  · exact fuzzyScan_consumed_sublist text pattern 0 0 hr
  · simp [hr] at h

theorem calculateMatchScore_pos_sublist {name q : Str}
    (h : 0 < calculateMatchScore name q) : List.Sublist q (jsToLower name) := by
  unfold calculateMatchScore at h
  by_cases h1 : jsToLower name = q
  · exact h1 ▸ List.Sublist.refl _
  · rw [if_neg h1] at h
    by_cases h2 : strStartsWith (jsToLower name) q = true
    · exact strStartsWith_sublist h2
    · rw [if_neg h2] at h
      by_cases h3 : strIncludes (jsToLower name) q = true
      · exact strIncludes_sublist h3
      · rw [if_neg h3] at h
        exact fuzzyMatch_pos_sublist h

/-- Every record returned by `searchClasses` has a positive score for the
lowercased query. -/
theorem mem_searchClasses_pos (idx : List CSSClass) (query : Str) (limit : Int)
    (hq : query ≠ ([] : List Char)) {c : CSSClass}
    (hc : c ∈ searchClasses idx query limit) :
    0 < calculateMatchScore c.name (jsToLower query) := by
  rw [searchClasses_eq idx query limit hq] at hc
  rcases List.mem_map.mp hc with ⟨p, hp, hpc⟩
  have hp2 : p ∈ sortDesc ((idx.filter
      (fun c => decide (0 < calculateMatchScore c.name (jsToLower query)))).map
        (fun c => (c, calculateMatchScore c.name (jsToLower query)))) :=
    (jsSlice_sublist _ _).mem hp
  have hp3 := (sortDesc_perm _).mem_iff.mp hp2
  rcases List.mem_map.mp hp3 with ⟨c', hc', hcc⟩
  have := List.of_mem_filter hc'
  rw [decide_eq_true_eq] at this
  have hname : c = c' := by rw [← hpc, ← hcc]
  rw [hname]
  exact this

/-- C2: the fuzzy tier is one left-to-right scan matching the query as a
subsequence of the name, each matched character adding 1 plus the immediately
preceding consecutive-match count to a running total; if the whole pattern is
consumed the score is `min(total * 2, 40)`, otherwise the score is 0; and
search never returns a record whose lowercased name does not contain the
lowercased query as a subsequence. -/
theorem C2_fuzzy_subsequence (text pattern : Str) (idx : List CSSClass)
    (query : Str) (limit : Int) :
    (∀ (c : Char) (ts : Str) (q : Char) (qs : Str) (score consec : Nat),
      fuzzyScan (c :: ts) (q :: qs) score consec =
        if c = q then fuzzyScan ts qs (score + 1 + consec) (consec + 1)
        else fuzzyScan ts (q :: qs) score 0) ∧
    ((fuzzyScan text pattern 0 0).2 = ([] : List Char) →
      fuzzyMatch text pattern = min ((fuzzyScan text pattern 0 0).1 * 2) 40) ∧
    ((fuzzyScan text pattern 0 0).2 ≠ ([] : List Char) → fuzzyMatch text pattern = 0) ∧
    (∀ c ∈ searchClasses idx query limit,
      List.Sublist (jsToLower query) (jsToLower c.name)) := by
  refine ⟨fun c ts q qs score consec => rfl, ?_, ?_, ?_⟩
  · intro h
    unfold fuzzyMatch
    rw [if_pos h]
  · intro h
    unfold fuzzyMatch
    rw [if_neg h]
  · intro c hc
    by_cases hq : query = ([] : List Char)
    · rw [hq]
      exact List.nil_sublist _
    · exact calculateMatchScore_pos_sublist (mem_searchClasses_pos idx query limit hq hc)

theorem C2_fuzzy_subsequence_witness :
    List.Sublist (jsToLower ("pm".data)) (jsToLower ("primary".data)) ∧
    fuzzyMatch ("xyz".data) ("primary".data) = 0 ∧
    fuzzyMatch ("primary".data) ("pm".data)
      = min ((fuzzyScan ("primary".data) ("pm".data) 0 0).1 * 2) 40 :=
  ⟨(C2_fuzzy_subsequence ("xyz".data) ("primary".data)
      [exPrimary, exBtnPrimary, exXyz] ("pm".data) 50).2.2.2 exPrimary (by decide),
   (C2_fuzzy_subsequence ("xyz".data) ("primary".data)
      [exPrimary, exBtnPrimary, exXyz] ("pm".data) 50).2.2.1 (by decide),
   (C2_fuzzy_subsequence ("primary".data) ("pm".data)
      [exPrimary, exBtnPrimary, exXyz] ("pm".data) 50).2.1 (by decide)⟩

/-! ### Helper lemmas about the `Map`-backed index -/

theorem getClass_mapSet_self (idx : List CSSClass) (c : CSSClass) :
    getClass (mapSet idx c) c.name = some c := by
  unfold mapSet getClass
  by_cases h : idx.any (fun x => decide (x.name = c.name)) = true
  · rw [if_pos h]
    induction idx with
    | nil => simp at h
    | cons x t ih =>
      by_cases hx : x.name = c.name
      · simp [hx]
      · simp only [List.any_cons, Bool.or_eq_true, decide_eq_true_eq] at h
        rcases h with h | h
        · exact absurd h hx
        · simpa [hx] using ih h
  · rw [if_neg h]
    rw [Bool.not_eq_true, List.any_eq_false] at h
    rw [List.find?_append]
    have : idx.find? (fun x => decide (x.name = c.name)) = none := by
      rw [List.find?_eq_none]
      intro x hx
      simpa using (by simpa using h x hx)
    simp [this]

theorem find?_name_map_replace (t : List CSSClass) (y : CSSClass) (N : Str)
    (h : ¬ y.name = N) :
    List.find? (fun c => decide (c.name = N))
        (t.map (fun x => if x.name = y.name then y else x))
      = List.find? (fun c => decide (c.name = N)) t := by
  induction t with
  | nil => rfl
  | cons x t ih =>
    rw [List.map_cons]
    by_cases hx : x.name = y.name
    · rw [if_pos hx]
      have hxN : ¬ x.name = N := fun hc => h (hx.symm.trans hc)
      rw [List.find?_cons_of_neg _ (by simpa using h),
        List.find?_cons_of_neg _ (by simpa using hxN), ih]
    · rw [if_neg hx]
      by_cases hxN : x.name = N
      · rw [List.find?_cons_of_pos _ (by simpa using hxN),
          List.find?_cons_of_pos _ (by simpa using hxN)]
      · rw [List.find?_cons_of_neg _ (by simpa using hxN),
          List.find?_cons_of_neg _ (by simpa using hxN), ih]

theorem getClass_mapSet_other (idx : List CSSClass) (y : CSSClass) (N : Str)
    (h : ¬ y.name = N) : getClass (mapSet idx y) N = getClass idx N := by
  unfold mapSet getClass
  by_cases ha : idx.any (fun x => decide (x.name = y.name)) = true
  · rw [if_pos ha]
    exact find?_name_map_replace idx y N h
  · rw [if_neg ha, List.find?_append]
    have h1 : ([y].find? (fun c => decide (c.name = N))) = none := by simp [h]
    rw [h1]
    cases idx.find? (fun c => decide (c.name = N)) <;> rfl

theorem insertAll_concat (idx : List CSSClass) (cs : List CSSClass) (a : CSSClass) :
    insertAll idx (cs ++ [a]) = mapSet (insertAll idx cs) a := by
  unfold insertAll
  rw [List.foldl_append]
  rfl

/-- Inserting records in order with `Map.set` realises last-definition-wins:
after inserting `cs`, looking up `N` yields the last inserted record named
`N`. -/
theorem getClass_insertAll_last (idx : List CSSClass) (cs : List CSSClass) (N : Str)
    (c : CSSClass)
    (h : (cs.filter (fun r => decide (r.name = N))).getLast? = some c) :
    getClass (insertAll idx cs) N = some c := by
  induction cs using List.reverseRecOn with
  | nil => simp [List.filter_nil] at h
  | append_singleton t a ih =>
    rw [insertAll_concat]
    by_cases hx : a.name = N
    · rw [List.filter_append, List.filter_cons] at h
      rw [if_pos (by simpa using hx)] at h
      simp only [List.filter_nil, List.getLast?_concat, Option.some.injEq] at h
      rw [← hx, h]
      exact getClass_mapSet_self _ c
    · rw [List.filter_append, List.filter_cons] at h
      rw [if_neg (by simpa using hx)] at h
      simp only [List.filter_nil, List.append_nil] at h
      rw [getClass_mapSet_other _ _ _ hx]
      exact ih h

theorem nodup_names_mapSet (idx : List CSSClass) (c : CSSClass)
    (h : (idx.map CSSClass.name).Nodup) : ((mapSet idx c).map CSSClass.name).Nodup := by
  unfold mapSet
  by_cases ha : idx.any (fun x => decide (x.name = c.name)) = true
  · rw [if_pos ha]
    have hnames : (idx.map (fun x => if x.name = c.name then c else x)).map CSSClass.name
        = idx.map CSSClass.name := by
      rw [List.map_map]
      apply List.map_congr_left
      intro a _
      by_cases hx : a.name = c.name
      · simp [hx]
      · simp [hx]
    rw [hnames]
    exact h
  · rw [if_neg ha, List.map_append, List.nodup_append]
    refine ⟨h, List.nodup_singleton _, ?_⟩
    intro b hb hbc
    rcases List.mem_map.mp hb with ⟨x, hx, hxb⟩
    have hbc' : b = c.name := by simpa using hbc
    rw [Bool.not_eq_true, List.any_eq_false] at ha
    exact absurd (by simpa using (hxb.trans hbc')) (by simpa using ha x hx)

theorem nodup_names_insertAll (idx : List CSSClass) (cs : List CSSClass)
    (h : (idx.map CSSClass.name).Nodup) :
    ((insertAll idx cs).map CSSClass.name).Nodup := by
  induction cs generalizing idx with
  | nil => exact h
  | cons c t ih => exact ih _ (nodup_names_mapSet idx c h)

theorem nodup_names_removeClassesFromFile (idx : List CSSClass) (p : Str)
    (h : (idx.map CSSClass.name).Nodup) :
    ((removeClassesFromFile idx p).map CSSClass.name).Nodup :=
  ((List.filter_sublist idx).map CSSClass.name).nodup h

theorem nodup_names_indexFile (idx : List CSSClass) (p : Str) (rd : Option (Option Root))
    (h : (idx.map CSSClass.name).Nodup) :
    ((indexFile idx p rd).map CSSClass.name).Nodup := by
  cases rd with
  | none => exact h
  | some ast =>
    exact nodup_names_insertAll _ _ (nodup_names_removeClassesFromFile idx p h)

theorem mem_mapSet {x : CSSClass} (idx : List CSSClass) (c : CSSClass)
    (h : x ∈ mapSet idx c) : x ∈ idx ∨ x = c := by
  unfold mapSet at h
  by_cases ha : idx.any (fun y => decide (y.name = c.name)) = true
  · rw [if_pos ha] at h
    rcases List.mem_map.mp h with ⟨y, hy, hyx⟩
    by_cases hn : y.name = c.name
    · right
      rw [← hyx, if_pos hn]
    · left
      rw [← hyx, if_neg hn]
      exact hy
  · rw [if_neg ha] at h
    rcases List.mem_append.mp h with h | h
    · exact Or.inl h
    · exact Or.inr (by simpa using h)

theorem mem_insertAll {x : CSSClass} (idx : List CSSClass) (cs : List CSSClass)
    (h : x ∈ insertAll idx cs) : x ∈ idx ∨ x ∈ cs := by
  induction cs generalizing idx with
  | nil => exact Or.inl h
  | cons c t ih =>
    have hstep : insertAll idx (c :: t) = insertAll (mapSet idx c) t := rfl
    rw [hstep] at h
    rcases ih _ h with h | h
    · rcases mem_mapSet idx c h with h | h
      · exact Or.inl h
      · exact Or.inr (h ▸ List.mem_cons_self c t)
    · exact Or.inr (List.mem_cons_of_mem c h)

/-- C3: indexing a file first removes every record whose `sourceFile` equals
the path and then inserts the newly parsed records keyed by name, overwriting
same-named records from any file; after two files are indexed in sequence, a
name defined by the second (most recent) file looks up to that file's
(last) record, never a merge, and names stay pairwise distinct. -/
theorem C3_last_definition_wins (idx : List CSSClass) (pA pB : Str)
    (rdA : Option (Option Root)) (astB : Option Root) (N : Str) (c : CSSClass)
    (hc : (((parseCSS astB pB).classes).filter
        (fun r => decide (r.name = N))).getLast? = some c)
    (hnodup : (idx.map CSSClass.name).Nodup) :
    getClass (indexFile (indexFile idx pA rdA) pB (some astB)) N = some c ∧
    ((indexFile (indexFile idx pA rdA) pB (some astB)).map CSSClass.name).Nodup ∧
    indexFile idx pB (some astB)
      = insertAll (removeClassesFromFile idx pB) (parseCSS astB pB).classes :=
  ⟨getClass_insertAll_last _ _ _ _ hc,
   nodup_names_indexFile _ _ _ (nodup_names_indexFile _ _ _ hnodup),
   rfl⟩

/-- The rule `.primary { color: red }` of the last-write-wins scenario. -/
def redPrimaryRule : Rule :=
  { selector := ".primary".data, decls := [("color".data, "red".data)],
    source := some (1, 1), prevComment := none }

/-- The rule `.primary { color: blue }` indexed second. -/
def bluePrimaryRule : Rule :=
  { selector := ".primary".data, decls := [("color".data, "blue".data)],
    source := some (5, 2), prevComment := none }

/-- A rule whose selector holds two class tokens but which has no
declarations. -/
def ruleNoDecls : Rule :=
  { selector := ".a, .b".data, decls := [],
    source := some (1, 1), prevComment := none }

def astRedPrimary : Root := [redPrimaryRule]

def astBluePrimary : Root := [bluePrimaryRule]

theorem C3_last_definition_wins_witness :
    getClass (indexFile (indexFile [] ("a.css".data) (some (some astRedPrimary)))
        ("b.css".data) (some (some astBluePrimary))) ("primary".data)
      = some { name := "primary".data,
               properties := [("color".data, "blue".data)],
               selector := ".primary".data,
               sourceFile := "b.css".data,
               line := 5, column := 2,
               category := some ("Typography".data),
               description := none } :=
  (C3_last_definition_wins [] ("a.css".data) ("b.css".data)
    (some (some astRedPrimary)) (some astBluePrimary) ("primary".data) _
    (by decide) (by decide)).1

/-- C4, counterexample to the read-failure half of the claim: with a record
for `a.css` already indexed, a failing read of `a.css` leaves that record in
the index, whereas "as if the file produced zero classes" would have removed
it (as the parser-failure path does). -/
theorem C4_read_failure_counterexample :
    indexFile [exPrimary] ("a.css".data) none = [exPrimary] ∧
    exPrimary.sourceFile = "a.css".data ∧
    indexFile [exPrimary] ("a.css".data) (some none) = [] := by
  refine ⟨rfl, rfl, ?_⟩
  decide

/-- C4 as amended: `indexFile` never raises; when the parser fails on the
whole file it records zero classes and leaves the prior records for the path
removed; when the read itself fails, the catch fires before
`removeClassesFromFile`, so the index is left entirely unchanged (prior
records for the path are retained, not removed). -/
theorem C4_failure_semantics (idx : List CSSClass) (p : Str) (ast : Option Root) :
    indexFile idx p none = idx ∧
    indexFile idx p (some none) = removeClassesFromFile idx p ∧
    indexFile idx p (some ast)
      = insertAll (removeClassesFromFile idx p) (parseCSS ast p).classes :=
  ⟨rfl, rfl, rfl⟩

/-- C5, counterexample: a kebab-case `font-size` property key does not fire
the Typography tier (the code tests `properties.fontSize`), and
`custom-thing` with only `z-index` is Spacing (its name contains "m-"), not
Utilities. -/
theorem C5_inferCategory_counterexample :
    inferCategory ("custom-thing".data) [("font-size".data, "1.5rem".data)]
      = "Spacing".data ∧
    inferCategory ("custom-thing".data) [("font-size".data, "1.5rem".data)]
      ≠ "Typography".data ∧
    inferCategory ("abc".data) [("font-size".data, "1.5rem".data)] = "Utilities".data ∧
    inferCategory ("custom-thing".data) [("z-index".data, "10".data)] = "Spacing".data ∧
    inferCategory ("custom-thing".data) [("z-index".data, "10".data)]
      ≠ "Utilities".data := by
  refine ⟨by decide, by decide, by decide, by decide, by decide⟩

/-- C5 as amended: `inferCategory` is deterministic and checks the eight
tiers in fixed priority order, first match wins, each tier firing on a
case-insensitive substring of the name OR truthy presence of property keys as
the code spells them — camelCase `fontSize`/`fontFamily`/`backgroundColor`/
`borderRadius`, which never match the kebab-case keys the CSS parser
produces, while single-word keys (`display`, `color`, `background`, `border`,
…) do fire; `color` still yields Typography, kebab-case `font-size`/
`background-color`/`border-radius` fire nothing, `custom-thing` with only
`z-index` is Spacing (name contains "m-"), and a name matching no tier with
no matching key (`shadow` with only `z-index`) is Utilities. -/
theorem C5_inferCategory_amended (name : Str) (props : List (Str × Str)) :
    (inferCategory name props =
      (if strIncludes (jsToLower name) ("flex".data)
          || strIncludes (jsToLower name) ("grid".data)
          || propTruthy props ("display".data) then ("Layout".data)
       else if strIncludes (jsToLower name) ("text".data)
          || strIncludes (jsToLower name) ("font".data)
          || propTruthy props ("fontSize".data) || propTruthy props ("fontFamily".data)
          || propTruthy props ("color".data) then ("Typography".data)
       else if strIncludes (jsToLower name) ("bg".data)
          || strIncludes (jsToLower name) ("background".data)
          || propTruthy props ("backgroundColor".data)
          || propTruthy props ("background".data) then ("Background".data)
       else if strIncludes (jsToLower name) ("border".data)
          || propTruthy props ("border".data)
          || propTruthy props ("borderRadius".data) then ("Border".data)
       else if strIncludes (jsToLower name) ("p-".data)
          || strIncludes (jsToLower name) ("m-".data)
          || strIncludes (jsToLower name) ("padding".data)
          || strIncludes (jsToLower name) ("margin".data)
          || propTruthy props ("padding".data)
          || propTruthy props ("margin".data) then ("Spacing".data)
       else if strIncludes (jsToLower name) ("w-".data)
          || strIncludes (jsToLower name) ("h-".data)
          || strIncludes (jsToLower name) ("width".data)
          || strIncludes (jsToLower name) ("height".data)
          || propTruthy props ("width".data)
          || propTruthy props ("height".data) then ("Sizing".data)
       else if strIncludes (jsToLower name) ("hidden".data)
          || strIncludes (jsToLower name) ("visible".data)
          || propTruthy props ("visibility".data)
          || propTruthy props ("opacity".data) then ("Visibility".data)
       else ("Utilities".data))) ∧
    inferCategory ("flex-center".data) [("display".data, "flex".data)] = "Layout".data ∧
    inferCategory ("text-lg".data) [("font-size".data, "1.5rem".data)]
      = "Typography".data ∧
    inferCategory ("abc".data) [("color".data, "red".data)] = "Typography".data ∧
    inferCategory ("abc".data) [("background-color".data, "red".data)]
      = "Utilities".data ∧
    inferCategory ("abc".data) [("border-radius".data, "2px".data)] = "Utilities".data ∧
    inferCategory ("shadow".data) [("z-index".data, "10".data)] = "Utilities".data :=
  ⟨rfl, by decide, by decide, by decide, by decide, by decide, by decide⟩

/-- The number of records the non-empty-query search scores positively (for
the empty query, the whole index is eligible). -/
def matchCount (idx : List CSSClass) (q : Str) : Nat :=
  if q = ([] : List Char) then idx.length
  else (idx.filter (fun c => decide (0 < calculateMatchScore c.name (jsToLower q)))).length

/-- C6, counterexample: a negative limit is `≤ 0` yet does not yield "no
results" — `slice(0, -1)` drops one record from the end instead. -/
theorem C6_negative_limit_counterexample :
    ((-1 : Int) ≤ 0) ∧
    searchClasses [exPrimary, exBtnPrimary] ("primary".data) (-1) = [exPrimary] :=
  ⟨by decide, by decide⟩

/-- C6 as amended: `search(query, 0)` returns no results and a positive limit
K bounds the result count by K, but a negative limit is not "no results": by
JS `slice(0, limit)` semantics it returns all but the last `|limit|` eligible
records (`max(matchCount + limit, 0)` of them). -/
theorem C6_limit_semantics (idx : List CSSClass) (query : Str) (limit : Int) :
    (limit = 0 → searchClasses idx query limit = []) ∧
    (0 < limit → ((searchClasses idx query limit).length : Int) ≤ limit) ∧
    (limit < 0 → ((searchClasses idx query limit).length : Int)
      = max ((matchCount idx query : Int) + limit) 0) := by
  have hlen : ((searchClasses idx query limit).length : Int)
      = (if limit < 0 then max ((matchCount idx query : Int) + limit) 0
         else min limit (matchCount idx query)) := by
    by_cases hq : query = ([] : List Char)
    · rw [hq]
      simp only [searchClasses, if_pos rfl, matchCount, if_pos rfl]
      exact length_jsSlice idx limit
    · rw [searchClasses_eq idx query limit hq, List.length_map]
      have hn : (sortDesc ((idx.filter
          (fun c => decide (0 < calculateMatchScore c.name (jsToLower query)))).map
            (fun c => (c, calculateMatchScore c.name (jsToLower query))))).length
          = matchCount idx query := by
        rw [(sortDesc_perm _).length_eq, List.length_map, matchCount, if_neg hq]
      rw [length_jsSlice, hn]
  refine ⟨?_, ?_, ?_⟩
  · intro h
    subst h
    rw [← List.length_eq_zero]
    rw [if_neg (by omega)] at hlen
    omega
  · intro h
    rw [hlen]
    have : ¬ limit < 0 := by omega
    rw [if_neg this]
    omega
  · intro h
    rw [hlen, if_pos h]

theorem C6_limit_semantics_witness :
    searchClasses [exPrimary, exBtnPrimary] ("primary".data) 0 = [] ∧
    ((searchClasses [exPrimary, exBtnPrimary] ("primary".data) 1).length : Int) ≤ 1 ∧
    ((searchClasses [exPrimary, exBtnPrimary] ("primary".data) (-1)).length : Int)
      = max ((matchCount [exPrimary, exBtnPrimary] ("primary".data) : Int) + (-1)) 0 :=
  ⟨(C6_limit_semantics [exPrimary, exBtnPrimary] ("primary".data) 0).1 rfl,
   (C6_limit_semantics [exPrimary, exBtnPrimary] ("primary".data) 1).2.1 (by decide),
   (C6_limit_semantics [exPrimary, exBtnPrimary] ("primary".data) (-1)).2.2 (by decide)⟩

/-! ### Helper lemmas about parsing and extraction -/

theorem objSet_ne_nil (ps : List (Str × Str)) (k v : Str) : objSet ps k v ≠ [] := by
  unfold objSet
  split
  · rename_i h
    cases ps with
    | nil => simp at h
    | cons p t => simp
  · simp

theorem foldl_objSet_ne_nil (ds : List (Str × Str)) (acc : List (Str × Str))
    (h : acc ≠ []) : ds.foldl (fun a d => objSet a d.1 d.2) acc ≠ [] := by
  induction ds generalizing acc with
  | nil => exact h
  | cons d t ih => exact ih _ (objSet_ne_nil _ _ _)

theorem propsOfDecls_ne_nil (decls : List (Str × Str)) (h : decls ≠ []) :
    propsOfDecls decls ≠ [] := by
  cases decls with
  | nil => exact absurd rfl h
  | cons d t => exact foldl_objSet_ne_nil t _ (objSet_ne_nil _ _ _)

theorem propsOfDecls_nil : propsOfDecls [] = [] := rfl

/-- Characterisation of a record produced from one rule: its fields are
stamped from the rule, the full property object, the raw selector, and the
given file path. -/
theorem mem_extractFromRule {r : CSSClass} {rule : Rule} {fp : Str}
    (h : r ∈ extractFromRule rule fp) :
    r.properties = propsOfDecls rule.decls ∧
    r.properties ≠ [] ∧
    r.selector = rule.selector ∧
    r.sourceFile = fp ∧
    r.line = jsOrZero (rule.source.map Prod.fst) ∧
    r.column = jsOrZero (rule.source.map Prod.snd) ∧
    ∃ sel ∈ parseSelector rule.selector, r.name = List.drop 1 sel := by
  rcases List.mem_filterMap.mp h with ⟨sel, hsel, heq⟩
  unfold classOfSelector at heq
  by_cases h1 : (strStartsWith sel (".".data) && isValidClassName sel) = true
  · rw [if_pos h1] at heq
    by_cases h2 : 0 < (propsOfDecls rule.decls).length
    · rw [if_pos h2] at heq
      have hr := Option.some.inj heq
      subst hr
      exact ⟨rfl, List.ne_nil_of_length_pos h2, rfl, rfl, rfl, rfl, sel, hsel, rfl⟩
    · rw [if_neg h2] at heq
      exact absurd heq (by simp)
  · rw [if_neg h1] at heq
    exact absurd heq (by simp)

theorem mem_extractClassesFromAST {r : CSSClass} {root : Root} {fp : Str}
    (h : r ∈ extractClassesFromAST root fp) :
    ∃ rule ∈ root, r ∈ extractFromRule rule fp := by
  rcases List.mem_flatMap.mp h with ⟨rule, hrule, hr⟩
  exact ⟨rule, hrule, hr⟩

/-- C7: a rule with zero declarations stores no record; every record the
parser emits has a non-empty property map, and the index operations preserve
that invariant. -/
theorem C7_nonempty_properties (root : Root) (fp : Str) (rule : Rule)
    (idx : List CSSClass) (p : Str) (rd : Option (Option Root)) :
    (∀ r ∈ extractClassesFromAST root fp, r.properties ≠ []) ∧
    (rule.decls = [] → extractFromRule rule fp = []) ∧
    ((∀ x ∈ idx, x.properties ≠ []) →
      ∀ x ∈ indexFile idx p rd, x.properties ≠ []) ∧
    ((∀ x ∈ idx, x.properties ≠ []) →
      ∀ x ∈ removeClassesFromFile idx p, x.properties ≠ []) := by
  refine ⟨?_, ?_, ?_, ?_⟩
  · intro r hr
    rcases mem_extractClassesFromAST hr with ⟨rule, _, hmem⟩
    exact (mem_extractFromRule hmem).2.1
  · intro hd
    unfold extractFromRule
    rw [List.filterMap_eq_nil_iff]
    intro sel _
    unfold classOfSelector
    rw [hd, propsOfDecls_nil]
    simp
  · intro hidx x hx
    cases rd with
    | none => exact hidx x hx
    | some ast =>
      rcases mem_insertAll _ _ hx with hx | hx
      · exact hidx x (List.mem_of_mem_filter hx)
      · cases ast with
        | none => simp [parseCSS] at hx
        | some root' =>
          rcases mem_extractClassesFromAST hx with ⟨rule', _, hmem⟩
          exact (mem_extractFromRule hmem).2.1
  · intro hidx x hx
    exact hidx x (List.mem_of_mem_filter hx)

theorem C7_nonempty_properties_witness :
    extractFromRule ruleNoDecls ("f.css".data) = [] ∧
    (∀ x ∈ indexFile [exPrimary] ("b.css".data) (some (some astBluePrimary)),
      x.properties ≠ []) :=
  ⟨(C7_nonempty_properties [] ("f.css".data) ruleNoDecls
      [] ("f.css".data) none).2.1 rfl,
   (C7_nonempty_properties [] ("f.css".data) ruleNoDecls
      [exPrimary] ("b.css".data) (some (some astBluePrimary))).2.2.1
      (by decide)⟩

/-- C9: provided every rule of the parsed AST carries the 1-based source
position postcss attaches to parsed nodes, every extracted record has
`line ≥ 1` and `column ≥ 1`. -/
theorem C9_one_based_positions (root : Root) (fp : Str)
    (h : ∀ rule ∈ root, ∃ l c, rule.source = some (l, c) ∧ 1 ≤ l ∧ 1 ≤ c) :
    ∀ r ∈ extractClassesFromAST root fp, 1 ≤ r.line ∧ 1 ≤ r.column := by
  intro r hr
  rcases mem_extractClassesFromAST hr with ⟨rule, hrule, hmem⟩
  rcases h rule hrule with ⟨l, c, hsrc, hl, hc⟩
  have hfields := mem_extractFromRule hmem
  rw [hfields.2.2.2.2.1, hfields.2.2.2.2.2.1, hsrc]
  exact ⟨hl, hc⟩

/-- The record `extractClassesFromAST` produces from `bluePrimaryRule`. -/
def bluePrimaryRecord : CSSClass :=
  { name := "primary".data, properties := [("color".data, "blue".data)],
    selector := ".primary".data, sourceFile := "b.css".data,
    line := 5, column := 2, category := some ("Typography".data),
    description := none }

theorem C9_one_based_positions_witness :
    1 ≤ bluePrimaryRecord.line ∧ 1 ≤ bluePrimaryRecord.column :=
  C9_one_based_positions astBluePrimary ("b.css".data)
    (by intro rule hrule
        refine ⟨5, 2, ?_, by decide, by decide⟩
        have hr : rule = bluePrimaryRule := by
          simpa [astBluePrimary] using hrule
        rw [hr]
        rfl)
    bluePrimaryRecord (by decide)

/-! ### C8: description extraction -/

theorem descSearch_eq_none_of_no_at (l : Str)
    (h : strIncludes l ("@".data) = false) : descSearch l = none := by
  induction l with
  | nil => rfl
  | cons c t ih =>
    have hsplit : strStartsWith (c :: t) ("@".data) = false ∧
        strIncludes t ("@".data) = false := by
      have : strIncludes (c :: t) ("@".data)
          = (strStartsWith (c :: t) ("@".data) || strIncludes t ("@".data)) := rfl
      rw [this] at h
      exact ⟨by revert h; cases strStartsWith (c :: t) ("@".data) <;> simp,
             by revert h; cases strIncludes t ("@".data) <;> simp⟩
    have hc : ¬ c = '@' := by
      intro hc
      have : strStartsWith (c :: t) ("@".data) = true := by
        simp [strStartsWith, hc]
      rw [this] at hsplit
      exact absurd hsplit.1 (by simp)
    have hm : descMatchAt (c :: t) = none := by
      unfold descMatchAt
      rw [if_neg ?_]
      simp [strStartsWith, hc]
    unfold descSearch
    rw [hm]
    exact ih hsplit.2

/-- C8: the description of the comment preceding a rule: the trimmed capture
of the first `@description <text>` match when one exists; otherwise the whole
trimmed comment when it has no `@` at all and its trimmed length is under
100; otherwise absent — in particular a comment `@category Layout` with no
`@description` yields no description. -/
theorem C8_description_extraction (txt : Str) :
    (∀ cap, descSearch (jsTrim txt) = some cap →
      extractDescription (some txt) = some (jsTrim cap)) ∧
    (strIncludes (jsTrim txt) ("@".data) = false → (jsTrim txt).length < 100 →
      extractDescription (some txt) = some (jsTrim txt)) ∧
    (descSearch (jsTrim txt) = none →
      (strIncludes (jsTrim txt) ("@".data) = true ∨ 100 ≤ (jsTrim txt).length) →
      extractDescription (some txt) = none) ∧
    extractDescription (some ("@category Layout".data)) = none ∧
    extractDescription (some (" @description   Centers content  ".data))
      = some ("Centers content".data) ∧
    extractDescription (some (" helper ".data)) = some ("helper".data) := by
  refine ⟨?_, ?_, ?_, by decide, by decide, by decide⟩
  · intro cap hcap
    simp only [extractDescription]
    rw [hcap]
  · intro hat hlen
    simp only [extractDescription]
    rw [descSearch_eq_none_of_no_at _ hat]
    simp [hat, hlen]
  · intro hnone hor
    simp only [extractDescription]
    rw [hnone]
    rcases hor with hat | hlen
    · simp [hat]
    · simp [hlen, Nat.not_lt.mpr hlen]

theorem C8_description_extraction_witness :
    extractDescription (some (" @description   Centers content  ".data))
      = some (jsTrim ("Centers content".data)) ∧
    extractDescription (some (" helper ".data)) = some (jsTrim (" helper ".data)) ∧
    extractDescription (some ("@category Layout".data)) = none :=
  ⟨(C8_description_extraction (" @description   Centers content  ".data)).1
      ("Centers content".data) (by decide),
   (C8_description_extraction (" helper ".data)).2.1 (by decide) (by decide),
   (C8_description_extraction ("@category Layout".data)).2.2.1 (by decide)
      (Or.inl (by decide))⟩

/-! ### C10: one record per class token -/

theorem classTokensFuel_shape (fuel : Nat) :
    ∀ (s tok : Str), tok ∈ classTokensFuel fuel s →
      ∃ d rest, tok = '.' :: d :: rest ∧ isAlphaUnd d = true
        ∧ List.all rest isWordDash = true := by
  induction fuel with
  | zero =>
    intro s tok h
    simp [classTokensFuel] at h
  | succ n ih =>
    intro s tok h
    match s with
    | [] => simp [classTokensFuel] at h
    | [c] => simp [classTokensFuel] at h
    | c :: d :: u =>
      unfold classTokensFuel at h
      by_cases hc : c = '.'
      · rw [if_pos hc] at h
        by_cases hd : isAlphaUnd d = true
        · rw [if_pos hd] at h
          rcases List.mem_cons.mp h with h | h
          · exact ⟨d, List.takeWhile isWordDash u, by rw [h], hd, List.all_takeWhile⟩
          · exact ih _ tok h
        · rw [if_neg hd] at h
          exact ih _ tok h
      · rw [if_neg hc] at h
        exact ih _ tok h

theorem mem_parseSelector_shape {sel tok : Str} (h : tok ∈ parseSelector sel) :
    ∃ d rest, tok = '.' :: d :: rest ∧ isAlphaUnd d = true
      ∧ List.all rest isWordDash = true := by
  rcases List.mem_flatMap.mp h with ⟨seg, _, hseg⟩
  exact classTokensFuel_shape _ _ tok hseg

theorem token_guard_true {tok : Str}
    (h : ∃ d rest, tok = '.' :: d :: rest ∧ isAlphaUnd d = true
      ∧ List.all rest isWordDash = true) :
    (strStartsWith tok (".".data) && isValidClassName tok) = true := by
  obtain ⟨d, rest, htok, hd, hrest⟩ := h
  subst htok
  simp [strStartsWith, isValidClassName, hd, hrest]

theorem filterMap_eq_map_of_some {α β : Type} (f : α → Option β) (g : α → β)
    (l : List α) (h : ∀ a ∈ l, f a = some (g a)) : l.filterMap f = l.map g := by
  induction l with
  | nil => rfl
  | cons a t ih =>
    rw [List.filterMap_cons, h a (List.mem_cons_self a t), List.map_cons,
      ih (fun x hx => h x (List.mem_cons_of_mem a hx))]

/-- C10, counterexample: the selector `.a, .b` yields two class tokens, yet a
rule with that selector and zero declarations produces no record at all, so
"one ClassRecord per class token" fails as stated. -/
theorem C10_zero_decls_counterexample :
    parseSelector (ruleNoDecls.selector) = [".a".data, ".b".data] ∧
    extractFromRule ruleNoDecls ("f.css".data) = [] :=
  ⟨by decide, by decide⟩

/-- C10 as amended: for every rule with at least one declaration, extraction
produces exactly one record per class token found anywhere in the selector
text (comma groups, compound and combinator selectors alike), in order, and
every such record carries the rule's full property map and the rule's raw
selector string. -/
theorem C10_one_record_per_token (rule : Rule) (fp : Str) (hd : rule.decls ≠ []) :
    extractFromRule rule fp = (parseSelector rule.selector).map (fun sel =>
      { name := List.drop 1 sel
        properties := propsOfDecls rule.decls
        selector := rule.selector
        sourceFile := fp
        line := jsOrZero (rule.source.map Prod.fst)
        column := jsOrZero (rule.source.map Prod.snd)
        category := some (inferCategory (List.drop 1 sel) (propsOfDecls rule.decls))
        description := descField (extractDescription rule.prevComment) }) := by
  unfold extractFromRule
  apply filterMap_eq_map_of_some
  intro sel hsel
  unfold classOfSelector
  rw [if_pos (token_guard_true (mem_parseSelector_shape hsel)),
    if_pos (List.length_pos.mpr (propsOfDecls_ne_nil rule.decls hd))]

/-- The rule `.a, .b { color: red }` used to witness the amended C10. -/
def ruleTwoTokens : Rule :=
  { selector := ".a, .b".data, decls := [("color".data, "red".data)],
    source := some (3, 2), prevComment := none }

theorem C10_one_record_per_token_witness :
    extractFromRule ruleTwoTokens ("f.css".data)
      = (parseSelector ruleTwoTokens.selector).map (fun sel =>
        { name := List.drop 1 sel
          properties := propsOfDecls ruleTwoTokens.decls
          selector := ruleTwoTokens.selector
          sourceFile := "f.css".data
          line := jsOrZero (ruleTwoTokens.source.map Prod.fst)
          column := jsOrZero (ruleTwoTokens.source.map Prod.snd)
          category := some (inferCategory (List.drop 1 sel)
            (propsOfDecls ruleTwoTokens.decls))
          description := descField (extractDescription ruleTwoTokens.prevComment) }) :=
  C10_one_record_per_token ruleTwoTokens ("f.css".data) (by decide)
